import Mathlib

/-!
Shallow embedding of the lexer of `src/src/compiler/lexer.rs`.

The repository declares a `Token` enum with Logos attributes: literal
recognizers (`#[token("...")]`, keywords at priority 10, other literals at
the Logos default priority of twice their length) and three regex classes
(`Identifier` at priority 3, `Hexadecimal` at priority 2, `Number` at
priority 1), plus a skip pattern for whitespace `[ \t\n\f]+`.

The scanning engine itself is the external `logos` crate; its semantics,
as documented by the specification (maximal munch, then priority on
exact-length ties; an unrecognized character becomes an error spanning that
one character and the cursor advances by one), is modelled here by
`candidates` / `best` / `scanFrom`.
-/

namespace WrenLexer

/-- Whitespace skipped by the lexer: the Logos skip regex `[ \t\n\f]+`
(space, tab, line feed, form feed). -/
def isWsChar (c : Char) : Bool :=
  c.toNat = 32 || c.toNat = 9 || c.toNat = 10 || c.toNat = 12

/-- The regex class `[0-9]` (`\d`). -/
def isDigitChar (c : Char) : Bool :=
  48 ≤ c.toNat && c.toNat ≤ 57

/-- The regex class `[a-zA-Z_]`, the first character of `Identifier`. -/
def isIdentStartChar (c : Char) : Bool :=
  (65 ≤ c.toNat && c.toNat ≤ 90) || (97 ≤ c.toNat && c.toNat ≤ 122) || c.toNat = 95

/-- The regex class `[a-zA-Z0-9_]`, a continuation character of `Identifier`. -/
def isIdentContChar (c : Char) : Bool :=
  isIdentStartChar c || isDigitChar c

/-- The regex class `[0-9a-fA-F]`, a digit of `Hexadecimal`. -/
def isHexDigitChar (c : Char) : Bool :=
  isDigitChar c || (97 ≤ c.toNat && c.toNat ≤ 102) || (65 ≤ c.toNat && c.toNat ≤ 70)

/-- Length of the longest prefix all of whose characters satisfy `p`. -/
def countWhile (p : Char → Bool) : List Char → Nat
  | [] => 0
  | c :: cs => if p c then countWhile p cs + 1 else 0

/-- The token kinds of the lexer, one constructor per variant of the Rust
`Token` enum, in source order. -/
inductive Token where
  | LineComment
  | BlockCommentPrefix
  | BlockCommentSuffix
  | OpenParenthesis
  | CloseParenthesis
  | OpenBracket
  | CloseBracket
  | OpenBrace
  | CloseBrace
  | Plus
  | Minus
  | Star
  | Slash
  | Percent
  | Negate
  | Equals
  | NotEqual
  | GreaterThan
  | LesserThan
  | GreaterThanEqualTo
  | LesserThanEqualTo
  | LogicalAnd
  | LogicalOr
  | Is
  | Ternary
  | BitwiseXOR
  | BitwiseAnd
  | BitwiseOr
  | BitwiseLeftShift
  | BitwiseRightShift
  | SingleQuote
  | DoubleQuote
  | Assignment
  | Dot
  | InclusiveRange
  | ExclusiveRange
  | Comma
  | BackSlash
  | Colon
  | HashTag
  | For
  | While
  | Break
  | Continue
  | Return
  | If
  | Else
  | Class
  | Construct
  | Static
  | Super
  | This
  | True
  | False
  | Null
  | Import
  | As
  | Var
  | In
  | Foreign
  | Identifier
  | Hexadecimal
  | Number
  deriving DecidableEq

/-- A literal recognizer anchored at the start of the text: `some n` exactly
when the literal is a prefix of the text, `n` its length. -/
def litMatch : List Char → List Char → Option Nat
  | [], _ => some 0
  | l :: ls, c :: cs => if l = c then (litMatch ls cs).map (· + 1) else none
  | _ :: _, [] => none

/-- The `#[token("...")]` table of the Rust enum, in source order:
`(kind, literal, priority)`. Keywords carry the explicit `priority = 10`;
the other literals carry the Logos default priority, twice their length. -/
def literalDefs : List (Token × List Char × Nat) :=
  [ (Token.LineComment, ['/', '/'], 4),
    (Token.BlockCommentPrefix, ['/', '*'], 4),
    (Token.BlockCommentSuffix, ['*', '/'], 4),
    (Token.OpenParenthesis, ['('], 2),
    (Token.CloseParenthesis, [')'], 2),
    (Token.OpenBracket, ['['], 2),
    (Token.CloseBracket, [']'], 2),
    (Token.OpenBrace, ['{'], 2),
    (Token.CloseBrace, ['}'], 2),
    (Token.Plus, ['+'], 2),
    (Token.Minus, ['-'], 2),
    (Token.Star, ['*'], 2),
    (Token.Slash, ['/'], 2),
    (Token.Percent, ['%'], 2),
    (Token.Negate, ['!'], 2),
    (Token.Equals, ['=', '='], 4),
    (Token.NotEqual, ['!', '='], 4),
    (Token.GreaterThan, ['>'], 2),
    (Token.LesserThan, ['<'], 2),
    (Token.GreaterThanEqualTo, ['>', '='], 4),
    (Token.LesserThanEqualTo, ['<', '='], 4),
    (Token.LogicalAnd, ['&', '&'], 4),
    (Token.LogicalOr, ['|', '|'], 4),
    (Token.Is, ['i', 's'], 10),
    (Token.Ternary, ['?'], 2),
    (Token.BitwiseXOR, ['^'], 2),
    (Token.BitwiseAnd, ['&'], 2),
    (Token.BitwiseOr, ['|'], 2),
    (Token.BitwiseLeftShift, ['<', '<'], 4),
    (Token.BitwiseRightShift, ['>', '>'], 4),
    (Token.SingleQuote, ['\''], 2),
    (Token.DoubleQuote, ['\"'], 2),
    (Token.Assignment, ['='], 2),
    (Token.Dot, ['.'], 2),
    (Token.InclusiveRange, ['.', '.'], 4),
    (Token.ExclusiveRange, ['.', '.', '.'], 6),
    (Token.Comma, [','], 2),
    (Token.BackSlash, ['\\'], 2),
    (Token.Colon, [':'], 2),
    (Token.HashTag, ['#'], 2),
    (Token.For, ['f', 'o', 'r'], 10),
    (Token.While, ['w', 'h', 'i', 'l', 'e'], 10),
    (Token.Break, ['b', 'r', 'e', 'a', 'k'], 10),
    (Token.Continue, ['c', 'o', 'n', 't', 'i', 'n', 'u', 'e'], 10),
    (Token.Return, ['r', 'e', 't', 'u', 'r', 'n'], 10),
    (Token.If, ['i', 'f'], 10),
    (Token.Else, ['e', 'l', 's', 'e'], 10),
    (Token.Class, ['c', 'l', 'a', 's', 's'], 10),
    (Token.Construct, ['c', 'o', 'n', 's', 't', 'r', 'u', 'c', 't'], 10),
    (Token.Static, ['s', 't', 'a', 't', 'i', 'c'], 10),
    (Token.Super, ['s', 'u', 'p', 'e', 'r'], 10),
    (Token.This, ['t', 'h', 'i', 's'], 10),
    (Token.True, ['t', 'r', 'u', 'e'], 10),
    (Token.False, ['f', 'a', 'l', 's', 'e'], 10),
    (Token.Null, ['n', 'u', 'l', 'l'], 10),
    (Token.Import, ['i', 'm', 'p', 'o', 'r', 't'], 10),
    (Token.As, ['a', 's'], 10),
    (Token.Var, ['v', 'a', 'r'], 10),
    (Token.In, ['i', 'n'], 10),
    (Token.Foreign, ['f', 'o', 'r', 'e', 'i', 'g', 'n'], 10) ]

/-- The keyword rows of the table: exactly the literals declared with
`priority = 10` in the source. -/
def keywordDefs : List (Token × List Char × Nat) :=
  literalDefs.filter (fun e => e.2.2 = 10)

/-- The keyword strings. -/
def kwStrings : List (List Char) :=
  keywordDefs.map (fun e => e.2.1)

/-- The regex `[a-zA-Z_][a-zA-Z0-9_]*` (priority 3): `some n` with `n` the
longest match, anchored at the start. -/
def identMatch : List Char → Option Nat
  | [] => none
  | c :: cs => if isIdentStartChar c then some (countWhile isIdentContChar cs + 1) else none

/-- The regex `0[xX][0-9a-fA-F]+` (priority 2): the exact prefix `0x`/`0X`
followed by at least one hex digit, else no match at all. -/
def hexMatch : List Char → Option Nat
  | c0 :: x :: cs =>
    if c0 = '0' ∧ (x = 'x' ∨ x = 'X') then
      let n := countWhile isHexDigitChar cs
      if n = 0 then none else some (n + 2)
    else none
  | _ => none

/-- The longest match of the union of the unsigned `Number` shapes
`\d+`, `\d+\.`, `\.\d+`, `\d+\.\d+`, anchored at the start. -/
def numBody (cs : List Char) : Option Nat :=
  let d := countWhile isDigitChar cs
  if d = 0 then
    match cs with
    | [] => none
    | c :: rest =>
      if c = '.' then
        let d2 := countWhile isDigitChar rest
        if d2 = 0 then none else some (d2 + 1)
      else none
  else
    match List.drop d cs with
    | [] => some d
    | c :: rest =>
      if c = '.' then
        let d2 := countWhile isDigitChar rest
        if d2 = 0 then some (d + 1) else some (d + 1 + d2)
      else some d

/-- The `Number` class (priority 1): the four regex alternatives
`[+-]?\d+`, `[+-]?\d+\.`, `[+-]?\.\d+`, `[+-]?\d+\.\d+`; the longest match
across the alternatives. -/
def numberMatch : List Char → Option Nat
  | [] => none
  | c :: cs =>
    if c = '+' ∨ c = '-' then (numBody cs).map (· + 1)
    else numBody (c :: cs)

/-- A candidate match: `(kind, matched length, priority)`. -/
abbrev Cand := Token × Nat × Nat

/-- The candidates produced by the literal recognizers at this position. -/
def litCands (cs : List Char) : List Cand :=
  literalDefs.filterMap (fun e => (litMatch e.2.1 cs).map (fun n => (e.1, n, e.2.2)))

/-- A class recognizer's contribution to the candidate list. -/
def optCand (t : Token) (p : Nat) : Option Nat → List Cand
  | none => []
  | some n => [(t, n, p)]

/-- The candidates produced by the three regex classes at this position,
with their declared priorities (Identifier 3, Hexadecimal 2, Number 1). -/
def classCands (cs : List Char) : List Cand :=
  optCand Token.Identifier 3 (identMatch cs) ++
  optCand Token.Hexadecimal 2 (hexMatch cs) ++
  optCand Token.Number 1 (numberMatch cs)

/-- Every recognizer's match at this position. -/
def candidates (cs : List Char) : List Cand :=
  litCands cs ++ classCands cs

/-- Disambiguation between two candidates: longer beats shorter, and on an
exact-length tie the higher priority beats the lower. -/
def pickBetter (a b : Cand) : Cand :=
  if b.2.1 > a.2.1 ∨ (b.2.1 = a.2.1 ∧ b.2.2 > a.2.2) then b else a

/-- The winning candidate (maximal munch, then priority), when any matches. -/
def best : List Cand → Option Cand
  | [] => none
  | c :: cs => some (cs.foldl pickBetter c)

/-- One step's outcome in a full pass over the input: an emitted token with
its lexeme and start offset, a silently skipped whitespace run, or an
unrecognized-character error at its offset. -/
inductive Item where
  | tok : Token → List Char → Nat → Item
  | ws : List Char → Nat → Item
  | err : Char → Nat → Item
  deriving DecidableEq

/-- The characters an item accounts for. -/
def itemText : Item → List Char
  | .tok _ lx _ => lx
  | .ws r _ => r
  | .err c _ => [c]

/-- The concatenation, in order, of the characters all items account for. -/
def itemsText (l : List Item) : List Char :=
  (l.map itemText).flatten

/-- An item's start offset. -/
def itemStart : Item → Nat
  | .tok _ _ p => p
  | .ws _ p => p
  | .err _ p => p

/-- The items are contiguous from `pos`: each starts where the previous one
ended, with no gap and no overlap. -/
def contiguousFrom : Nat → List Item → Prop
  | _, [] => True
  | pos, i :: is => itemStart i = pos ∧ contiguousFrom (pos + (itemText i).length) is

/-- The full pass, fuelled (each step consumes at least one character, so
`cs.length` fuel always suffices; see `scanFrom`): skip a maximal whitespace
run, otherwise emit the best candidate, otherwise report the character as an
error and advance by one. -/
def scanFuel : Nat → Nat → List Char → List Item
  | 0, _, _ => []
  | _ + 1, _, [] => []
  | f + 1, pos, c :: rest =>
    if isWsChar c then
      let n := countWhile isWsChar rest + 1
      Item.ws (List.take n (c :: rest)) pos :: scanFuel f (pos + n) (List.drop n (c :: rest))
    else
      match best (candidates (c :: rest)) with
      | some (t, n, _) =>
        Item.tok t (List.take n (c :: rest)) pos :: scanFuel f (pos + n) (List.drop n (c :: rest))
      | none => Item.err c pos :: scanFuel f (pos + 1) rest

/-- The full pass over `cs`, the cursor starting at offset `pos`. -/
def scanFrom (pos : Nat) (cs : List Char) : List Item :=
  scanFuel cs.length pos cs

/-- The full pass over an input buffer. -/
def scan (cs : List Char) : List Item :=
  scanFrom 0 cs

/-- The scanner object: an immutable input buffer and a cursor offset. -/
structure Scanner where
  input : List Char
  pos : Nat
  deriving DecidableEq

/-- What one `next()` call yields: a token (kind, lexeme, start, end) or a
`LexError { offset, character }`. -/
inductive ScanResult where
  | token : Token → List Char → Nat → Nat → ScanResult
  | error : Nat → Char → ScanResult
  deriving DecidableEq

/-- One pull on the scanner: skip whitespace, then either finish (`none`),
emit the winning candidate, or report the unrecognized character and advance
the cursor by exactly one. -/
def next (s : Scanner) : Option (ScanResult × Scanner) :=
  let rest := s.input.drop s.pos
  let w := countWhile isWsChar rest
  let p := s.pos + w
  match rest.drop w with
  | [] => none
  | c :: r2 =>
    match best (candidates (c :: r2)) with
    | some (t, n, _) =>
      some (ScanResult.token t (List.take n (c :: r2)) p (p + n), ⟨s.input, p + n⟩)
    | none => some (ScanResult.error p c, ⟨s.input, p + 1⟩)

/-- Replay up to `k` calls of `next`, collecting the yielded results. -/
def runNext : Nat → Scanner → List ScanResult
  | 0, _ => []
  | k + 1, s =>
    match next s with
    | none => []
    | some (r, s') => r :: runNext k s'

theorem countWhile_le (p : Char → Bool) : ∀ l : List Char, countWhile p l ≤ l.length := by
  intro l
  induction l with
  | nil => simp [countWhile]
  | cons c cs ih =>
    simp only [countWhile, List.length_cons]
    split <;> omega

theorem countWhile_cons_false {p : Char → Bool} {c : Char} (h : p c = false) (l : List Char) :
    countWhile p (c :: l) = 0 := by
  simp [countWhile, h]

theorem countWhile_cons_true {p : Char → Bool} {c : Char} (h : p c = true) (l : List Char) :
    countWhile p (c :: l) = countWhile p l + 1 := by
  simp [countWhile, h]

theorem countWhile_append_all {p : Char → Bool} :
    ∀ {l1 : List Char}, l1.all p = true → ∀ l2, countWhile p (l1 ++ l2) = l1.length + countWhile p l2 := by
  intro l1
  induction l1 with
  | nil => intro _ l2; simp
  | cons c cs ih =>
    intro h l2
    simp only [List.all_cons, Bool.and_eq_true] at h
    rw [List.cons_append, countWhile_cons_true h.1, ih h.2 l2, List.length_cons]
    omega

theorem countWhile_all_eq {p : Char → Bool} {l : List Char} (h : l.all p = true) :
    countWhile p l = l.length := by
  have := countWhile_append_all h []
  simpa using this

theorem countWhile_head_true {p : Char → Bool} {c : Char} {l : List Char}
    (h : 0 < countWhile p (c :: l)) : p c = true := by
  by_contra hc
  rw [countWhile_cons_false (Bool.not_eq_true _ ▸ hc : p c = false)] at h
  omega

theorem litMatch_some : ∀ (l cs : List Char) (n : Nat), litMatch l cs = some n →
    n = l.length ∧ ∃ t, cs = l ++ t := by
  intro l
  induction l with
  | nil =>
    intro cs n h
    simp only [litMatch, Option.some.injEq] at h
    exact ⟨h ▸ rfl, cs, rfl⟩
  | cons a l ih =>
    intro cs n h
    match cs with
    | [] => simp [litMatch] at h
    | c :: cs' =>
      simp only [litMatch] at h
      by_cases hac : a = c
      · rw [if_pos hac] at h
        obtain ⟨m, hm, hn⟩ := Option.map_eq_some'.mp h
        obtain ⟨hlen, t, ht⟩ := ih cs' m hm
        subst hac ht
        constructor
        · simp [← hn, hlen]
        · exact ⟨t, rfl⟩
      · rw [if_neg hac] at h
        exact absurd h (by simp)

theorem identMatch_some {cs : List Char} {n : Nat} (h : identMatch cs = some n) :
    ∃ c r, cs = c :: r ∧ isIdentStartChar c = true ∧ n = countWhile isIdentContChar r + 1 := by
  match cs with
  | [] => simp [identMatch] at h
  | c :: r =>
    simp only [identMatch] at h
    by_cases hs : isIdentStartChar c
    · rw [if_pos hs] at h
      exact ⟨c, r, rfl, hs, (Option.some.inj h).symm⟩
    · rw [if_neg hs] at h
      exact absurd h (by simp)

theorem hexMatch_some {cs : List Char} {n : Nat} (h : hexMatch cs = some n) :
    ∃ x r, cs = '0' :: x :: r ∧ (x = 'x' ∨ x = 'X') ∧
      0 < countWhile isHexDigitChar r ∧ n = countWhile isHexDigitChar r + 2 := by
  match cs with
  | [] => simp [hexMatch] at h
  | [c] => simp [hexMatch] at h
  | c0 :: x :: r =>
    simp only [hexMatch] at h
    by_cases hc : c0 = '0' ∧ (x = 'x' ∨ x = 'X')
    · rw [if_pos hc] at h
      by_cases hz : countWhile isHexDigitChar r = 0
      · simp [hz] at h
      · rw [if_neg hz] at h
        exact ⟨x, r, by rw [hc.1], hc.2, by omega, (Option.some.inj h).symm⟩
    · rw [if_neg hc] at h
      exact absurd h (by simp)

theorem numBody_some_head {c : Char} {r : List Char} {n : Nat} (h : numBody (c :: r) = some n) :
    isDigitChar c = true ∨ c = '.' := by
  by_cases hd : isDigitChar c
  · exact Or.inl hd
  · right
    have hz : countWhile isDigitChar (c :: r) = 0 :=
      countWhile_cons_false (Bool.not_eq_true _ ▸ hd) r
    simp only [numBody, hz, if_pos rfl] at h
    by_cases hdot : c = '.'
    · exact hdot
    · rw [if_neg hdot] at h
      exact absurd h (by simp)

theorem numBody_pos {cs : List Char} {n : Nat} (h : numBody cs = some n) : 1 ≤ n := by
  simp only [numBody] at h
  split at h
  · split at h
    · exact absurd h (by simp)
    · split at h
      · split at h
        · exact absurd h (by simp)
        · simp only [Option.some.injEq] at h
          omega
      · exact absurd h (by simp)
  · rename_i hd
    split at h
    · simp only [Option.some.injEq] at h
      omega
    · split at h
      · split at h <;> (simp only [Option.some.injEq] at h; omega)
      · simp only [Option.some.injEq] at h
        omega

theorem numberMatch_pos {cs : List Char} {n : Nat} (h : numberMatch cs = some n) : 1 ≤ n := by
  match cs with
  | [] => simp [numberMatch] at h
  | c :: r =>
    simp only [numberMatch] at h
    split at h
    · obtain ⟨m, hm, hn⟩ := Option.map_eq_some'.mp h
      omega
    · exact numBody_pos h

theorem numberMatch_some_head {c : Char} {r : List Char} {n : Nat}
    (h : numberMatch (c :: r) = some n) :
    c = '+' ∨ c = '-' ∨ isDigitChar c = true ∨ c = '.' := by
  simp only [numberMatch] at h
  split at h
  · rename_i hpm
    tauto
  · rcases numBody_some_head h with h1 | h1
    · exact Or.inr (Or.inr (Or.inl h1))
    · exact Or.inr (Or.inr (Or.inr h1))

theorem identMatch_le {cs : List Char} {n : Nat} (h : identMatch cs = some n) :
    n ≤ cs.length := by
  obtain ⟨c, r, rfl, _, rfl⟩ := identMatch_some h
  have := countWhile_le isIdentContChar r
  simp only [List.length_cons]
  omega

theorem hexMatch_le {cs : List Char} {n : Nat} (h : hexMatch cs = some n) :
    n ≤ cs.length := by
  obtain ⟨x, r, rfl, _, _, rfl⟩ := hexMatch_some h
  have := countWhile_le isHexDigitChar r
  simp only [List.length_cons]
  omega

theorem numBody_le {cs : List Char} {n : Nat} (h : numBody cs = some n) : n ≤ cs.length := by
  have hdle : countWhile isDigitChar cs ≤ cs.length := countWhile_le isDigitChar cs
  by_cases hz : countWhile isDigitChar cs = 0
  · match cs with
    | [] => simp [numBody, countWhile] at h
    | c :: rest =>
      simp only [numBody, hz, if_pos] at h
      by_cases hdot : c = '.'
      · rw [if_pos hdot] at h
        by_cases h2 : countWhile isDigitChar rest = 0
        · rw [if_pos h2] at h
          exact absurd h (by simp)
        · rw [if_neg h2] at h
          simp only [Option.some.injEq] at h
          have := countWhile_le isDigitChar rest
          simp only [List.length_cons]
          omega
      · rw [if_neg hdot] at h
        exact absurd h (by simp)
  · simp only [numBody, if_neg hz] at h
    rcases hdc : List.drop (countWhile isDigitChar cs) cs with _ | ⟨c2, rest2⟩
    · simp only [hdc, Option.some.injEq] at h
      omega
    · simp only [hdc] at h
      have hlen := congrArg List.length hdc
      rw [List.length_drop] at hlen
      simp only [List.length_cons] at hlen
      have h2le := countWhile_le isDigitChar rest2
      by_cases hdot : c2 = '.'
      · rw [if_pos hdot] at h
        by_cases h2 : countWhile isDigitChar rest2 = 0
        · rw [if_pos h2] at h
          simp only [Option.some.injEq] at h
          omega
        · rw [if_neg h2] at h
          simp only [Option.some.injEq] at h
          omega
      · rw [if_neg hdot] at h
        simp only [Option.some.injEq] at h
        omega

theorem numberMatch_le {cs : List Char} {n : Nat} (h : numberMatch cs = some n) :
    n ≤ cs.length := by
  match cs with
  | [] => simp [numberMatch] at h
  | c :: r =>
    simp only [numberMatch] at h
    split at h
    · obtain ⟨m, hm, hn⟩ := Option.map_eq_some'.mp h
      have := numBody_le hm
      simp only [List.length_cons]
      omega
    · exact numBody_le h

theorem literalDefs_nonempty : ∀ e ∈ literalDefs, e.2.1 ≠ [] := by decide

theorem mem_optCand {y : Cand} {t : Token} {p : Nat} {o : Option Nat} :
    y ∈ optCand t p o ↔ ∃ n, o = some n ∧ y = (t, n, p) := by
  cases o <;> simp [optCand]

theorem mem_candidates {y : Cand} {cs : List Char} (h : y ∈ candidates cs) :
    (∃ e ∈ literalDefs, ∃ n, litMatch e.2.1 cs = some n ∧ y = (e.1, n, e.2.2)) ∨
    (∃ n, identMatch cs = some n ∧ y = (Token.Identifier, n, 3)) ∨
    (∃ n, hexMatch cs = some n ∧ y = (Token.Hexadecimal, n, 2)) ∨
    (∃ n, numberMatch cs = some n ∧ y = (Token.Number, n, 1)) := by
  have h0 : y ∈ litCands cs ++ classCands cs := h
  rcases List.mem_append.mp h0 with h1 | h2
  · obtain ⟨e, he, hmap⟩ := List.mem_filterMap.mp h1
    obtain ⟨n, hn, hy⟩ := Option.map_eq_some'.mp hmap
    exact Or.inl ⟨e, he, n, hn, hy.symm⟩
  · have h2' : y ∈ (optCand Token.Identifier 3 (identMatch cs) ++
        optCand Token.Hexadecimal 2 (hexMatch cs)) ++
        optCand Token.Number 1 (numberMatch cs) := h2
    rcases List.mem_append.mp h2' with h3 | h6
    · rcases List.mem_append.mp h3 with h4 | h5
      · obtain ⟨n, hn, hy⟩ := mem_optCand.mp h4
        exact Or.inr (Or.inl ⟨n, hn, hy⟩)
      · obtain ⟨n, hn, hy⟩ := mem_optCand.mp h5
        exact Or.inr (Or.inr (Or.inl ⟨n, hn, hy⟩))
    · obtain ⟨n, hn, hy⟩ := mem_optCand.mp h6
      exact Or.inr (Or.inr (Or.inr ⟨n, hn, hy⟩))

theorem cand_len_pos {y : Cand} {cs : List Char} (h : y ∈ candidates cs) : 1 ≤ y.2.1 := by
  rcases mem_candidates h with ⟨e, he, n, hn, rfl⟩ | ⟨n, hn, rfl⟩ | ⟨n, hn, rfl⟩ | ⟨n, hn, rfl⟩
  · obtain ⟨hlen, t, ht⟩ := litMatch_some _ _ _ hn
    have hne := literalDefs_nonempty e he
    have : e.2.1.length ≠ 0 := by
      simpa [List.length_eq_zero] using hne
    simpa [hlen] using by omega
  · obtain ⟨c, r, _, _, hn'⟩ := identMatch_some hn
    simp only
    omega
  · obtain ⟨x, r, _, _, _, hn'⟩ := hexMatch_some hn
    simp only
    omega
  · simpa using numberMatch_pos hn

theorem cand_len_le {y : Cand} {cs : List Char} (h : y ∈ candidates cs) :
    y.2.1 ≤ cs.length := by
  rcases mem_candidates h with ⟨e, he, n, hn, rfl⟩ | ⟨n, hn, rfl⟩ | ⟨n, hn, rfl⟩ | ⟨n, hn, rfl⟩
  · obtain ⟨hlen, t, ht⟩ := litMatch_some _ _ _ hn
    subst ht
    simp only [List.length_append]
    omega
  · simpa using identMatch_le hn
  · simpa using hexMatch_le hn
  · simpa using numberMatch_le hn

theorem foldl_pickBetter_mem :
    ∀ (l : List Cand) (a : Cand), l.foldl pickBetter a = a ∨ l.foldl pickBetter a ∈ l := by
  intro l
  induction l with
  | nil => intro a; exact Or.inl rfl
  | cons b l ih =>
    intro a
    simp only [List.foldl_cons]
    rcases ih (pickBetter a b) with h | h
    · rw [h]
      simp only [pickBetter]
      split
      · exact Or.inr (List.mem_cons_self _ _)
      · exact Or.inl rfl
    · exact Or.inr (List.mem_cons_of_mem _ h)

theorem best_mem {l : List Cand} {x : Cand} (h : best l = some x) : x ∈ l := by
  match l with
  | [] => simp [best] at h
  | c :: cs =>
    simp only [best, Option.some.injEq] at h
    rcases foldl_pickBetter_mem cs c with h' | h'
    · rw [← h, h']
      exact List.mem_cons_self _ _
    · rw [← h]
      exact List.mem_cons_of_mem _ h'

theorem foldl_pickBetter_top {x : Cand} :
    ∀ (l : List Cand) (a : Cand),
      (∀ y ∈ l, y.2.1 < x.2.1 ∨ y = x) →
      (a = x ∨ a.2.1 < x.2.1) →
      (x ∈ l ∨ a = x) →
      l.foldl pickBetter a = x := by
  intro l
  induction l with
  | nil =>
    intro a _ ha hin
    rcases hin with h | h
    · exact absurd h (List.not_mem_nil x)
    · simpa using h
  | cons b l ih =>
    intro a hall ha hin
    simp only [List.foldl_cons]
    have hb := hall b (List.mem_cons_self b l)
    have hall' : ∀ y ∈ l, y.2.1 < x.2.1 ∨ y = x :=
      fun y hy => hall y (List.mem_cons_of_mem _ hy)
    rcases ha with rfl | halt
    · have hab : pickBetter a b = a := by
        simp only [pickBetter]
        rw [if_neg]
        rcases hb with hlt | rfl
        · push_neg
          constructor
          · omega
          · intro h1
            omega
        · push_neg
          constructor
          · omega
          · intro h1
            omega
      rw [hab]
      exact ih a hall' (Or.inl rfl) (Or.inr rfl)
    · have hxin : x ∈ b :: l := by
        rcases hin with h | rfl
        · exact h
        · omega
      rcases hb with hblt | rfl
      · have hxl : x ∈ l := by
          rcases List.mem_cons.mp hxin with rfl | h
          · omega
          · exact h
        have hlen : (pickBetter a b).2.1 < x.2.1 := by
          simp only [pickBetter]
          split
          · exact hblt
          · exact halt
        exact ih (pickBetter a b) hall' (Or.inr hlen) (Or.inl hxl)
      · have hab : pickBetter a b = b := by
          simp only [pickBetter]
          rw [if_pos]
          exact Or.inl halt
        rw [hab]
        exact ih b hall' (Or.inl rfl) (Or.inr rfl)

theorem best_eq_of_top {l : List Cand} {x : Cand} (hx : x ∈ l)
    (htop : ∀ y ∈ l, y.2.1 < x.2.1 ∨ y = x) : best l = some x := by
  match l with
  | [] => exact absurd hx (List.not_mem_nil x)
  | c :: cs =>
    simp only [best, Option.some.injEq]
    have hc := htop c (List.mem_cons_self c cs)
    have htop' : ∀ y ∈ cs, y.2.1 < x.2.1 ∨ y = x :=
      fun y hy => htop y (List.mem_cons_of_mem _ hy)
    rcases hc with hlt | rfl
    · have hxcs : x ∈ cs := by
        rcases List.mem_cons.mp hx with rfl | h
        · omega
        · exact h
      exact foldl_pickBetter_top cs c htop' (Or.inr hlt) (Or.inl hxcs)
    · exact foldl_pickBetter_top cs c htop' (Or.inl rfl) (Or.inr rfl)

theorem scanFuel_nil (f pos : Nat) : scanFuel f pos [] = [] := by
  cases f <;> rfl

theorem scanFuel_mono : ∀ (f g pos : Nat) (cs : List Char), cs.length ≤ f → cs.length ≤ g →
    scanFuel f pos cs = scanFuel g pos cs := by
  intro f
  induction f with
  | zero =>
    intro g pos cs h1 _
    have : cs = [] := List.length_eq_zero.mp (Nat.le_zero.mp h1)
    subst this
    rw [scanFuel_nil, scanFuel_nil]
  | succ f ih =>
    intro g pos cs h1 h2
    match cs with
    | [] => rw [scanFuel_nil, scanFuel_nil]
    | c :: rest =>
      match g with
      | 0 => simp at h2
      | g + 1 =>
        simp only [List.length_cons] at h1 h2
        simp only [scanFuel]
        by_cases hw : isWsChar c
        · simp only [if_pos hw]
          congr 1
          apply ih <;> (rw [List.length_drop]; simp only [List.length_cons]; omega)
        · simp only [if_neg hw]
          rcases hb : best (candidates (c :: rest)) with _ | ⟨t, n, p⟩
          · simp only [hb]
            congr 1
            apply ih <;> omega
          · simp only [hb]
            congr 1
            have hn : 1 ≤ n := cand_len_pos (best_mem hb)
            apply ih
            · rw [List.length_drop]
              simp only [List.length_cons]
              omega
            · rw [List.length_drop]
              simp only [List.length_cons]
              omega

theorem scanFrom_cons (pos : Nat) (c : Char) (rest : List Char) :
    scanFrom pos (c :: rest) =
      if isWsChar c then
        Item.ws (List.take (countWhile isWsChar rest + 1) (c :: rest)) pos ::
          scanFrom (pos + (countWhile isWsChar rest + 1))
            (List.drop (countWhile isWsChar rest + 1) (c :: rest))
      else
        match best (candidates (c :: rest)) with
        | some (t, n, _) =>
          Item.tok t (List.take n (c :: rest)) pos ::
            scanFrom (pos + n) (List.drop n (c :: rest))
        | none => Item.err c pos :: scanFrom (pos + 1) rest := by
  show scanFuel (rest.length + 1) pos (c :: rest) = _
  simp only [scanFuel]
  by_cases hw : isWsChar c
  · simp only [if_pos hw]
    congr 1
    show scanFuel rest.length _ _ = scanFuel (List.drop _ (c :: rest)).length _ _
    apply scanFuel_mono
    all_goals simp only [List.length_drop, List.length_cons]
    all_goals omega
  · simp only [if_neg hw]
    rcases hb : best (candidates (c :: rest)) with _ | ⟨t, n, p⟩
    · rfl
    · dsimp only
      congr 1
      have hn : 1 ≤ n := cand_len_pos (best_mem hb)
      show scanFuel rest.length _ _ = scanFuel (List.drop n (c :: rest)).length _ _
      apply scanFuel_mono
      all_goals simp only [List.length_drop, List.length_cons]
      all_goals omega

theorem scanFrom_ws_step {c : Char} (pos : Nat) (rest : List Char) (hw : isWsChar c = true) :
    scanFrom pos (c :: rest) =
      Item.ws (List.take (countWhile isWsChar rest + 1) (c :: rest)) pos ::
        scanFrom (pos + (countWhile isWsChar rest + 1))
          (List.drop (countWhile isWsChar rest + 1) (c :: rest)) := by
  rw [scanFrom_cons, if_pos hw]

theorem scanFrom_tok_step {c : Char} {rest : List Char} {t : Token} {n p pos : Nat}
    (hw : isWsChar c = false) (hb : best (candidates (c :: rest)) = some (t, n, p)) :
    scanFrom pos (c :: rest) =
      Item.tok t (List.take n (c :: rest)) pos ::
        scanFrom (pos + n) (List.drop n (c :: rest)) := by
  rw [scanFrom_cons, if_neg (by simp [hw]), hb]

theorem scanFrom_err_step {c : Char} {rest : List Char} {pos : Nat}
    (hw : isWsChar c = false) (hb : best (candidates (c :: rest)) = none) :
    scanFrom pos (c :: rest) = Item.err c pos :: scanFrom (pos + 1) rest := by
  rw [scanFrom_cons, if_neg (by simp [hw]), hb]

theorem itemsText_cons (i : Item) (l : List Item) :
    itemsText (i :: l) = itemText i ++ itemsText l := by
  simp [itemsText]

theorem scanFrom_text_aux : ∀ (f : Nat) (cs : List Char) (pos : Nat), cs.length ≤ f →
    itemsText (scanFrom pos cs) = cs := by
  intro f
  induction f with
  | zero =>
    intro cs pos h
    have : cs = [] := List.length_eq_zero.mp (Nat.le_zero.mp h)
    subst this
    rfl
  | succ f ih =>
    intro cs pos h
    match cs with
    | [] => rfl
    | c :: rest =>
      simp only [List.length_cons] at h
      rw [scanFrom_cons]
      by_cases hw : isWsChar c
      · rw [if_pos hw, itemsText_cons]
        rw [ih _ _ (by rw [List.length_drop]; simp only [List.length_cons]; omega)]
        exact List.take_append_drop _ _
      · rw [if_neg hw]
        rcases hb : best (candidates (c :: rest)) with _ | ⟨t, n, p⟩
        · rw [itemsText_cons]
          rw [ih _ _ (by omega)]
          rfl
        · have hn : 1 ≤ n := cand_len_pos (best_mem hb)
          rw [itemsText_cons]
          rw [ih _ _ (by rw [List.length_drop]; simp only [List.length_cons]; omega)]
          exact List.take_append_drop _ _

theorem scanFrom_contig_aux : ∀ (f : Nat) (cs : List Char) (pos : Nat), cs.length ≤ f →
    contiguousFrom pos (scanFrom pos cs) := by
  intro f
  induction f with
  | zero =>
    intro cs pos h
    have : cs = [] := List.length_eq_zero.mp (Nat.le_zero.mp h)
    subst this
    trivial
  | succ f ih =>
    intro cs pos h
    match cs with
    | [] => trivial
    | c :: rest =>
      simp only [List.length_cons] at h
      rw [scanFrom_cons]
      by_cases hw : isWsChar c
      · rw [if_pos hw]
        refine ⟨rfl, ?_⟩
        have hlen : (itemText (Item.ws (List.take (countWhile isWsChar rest + 1) (c :: rest)) pos)).length
            = countWhile isWsChar rest + 1 := by
          simp only [itemText, List.length_take, List.length_cons]
          have := countWhile_le isWsChar rest
          omega
        rw [hlen]
        exact ih _ _ (by rw [List.length_drop]; simp only [List.length_cons]; omega)
      · rw [if_neg hw]
        rcases hb : best (candidates (c :: rest)) with _ | ⟨t, n, p⟩
        · exact ⟨rfl, ih _ _ (by omega)⟩
        · have hn : 1 ≤ n := cand_len_pos (best_mem hb)
          have hle : n ≤ rest.length + 1 := by
            have := cand_len_le (best_mem hb)
            simpa using this
          refine ⟨rfl, ?_⟩
          have hlen : (itemText (Item.tok t (List.take n (c :: rest)) pos)).length = n := by
            simp only [itemText, List.length_take, List.length_cons]
            omega
          rw [hlen]
          exact ih _ _ (by rw [List.length_drop]; simp only [List.length_cons]; omega)

/-- The first characters of all literal recognizers of `literalDefs`. -/
def litHeads : List Char :=
  ['/', '*', '(', ')', '[', ']', '{', '}', '+', '-', '%', '!', '=', '>', '<', '&', '|', 'i',
   '?', '^', '\'', '\"', '.', ',', '\\', ':', '#', 'f', 'w', 'b', 'c', 'r', 'e', 's', 't',
   'n', 'v', 'a']

theorem literalDefs_headD : ∀ e ∈ literalDefs, e.2.1.headD ' ' ∈ litHeads ∧ e.2.1 ≠ [] := by
  decide

theorem litCands_nil {c : Char} (hc : c ∉ litHeads) (rest : List Char) :
    litCands (c :: rest) = [] := by
  apply List.filterMap_eq_nil_iff.mpr
  intro e he
  have h1 := literalDefs_headD e he
  match hl : e.2.1 with
  | [] => exact absurd hl h1.2
  | h :: t =>
    have hh : h ∈ litHeads := by
      have := h1.1
      rwa [hl] at this
    have hne : h ≠ c := fun he' => hc (he' ▸ hh)
    simp [hl, litMatch, hne]

theorem hexMatch_cons_ne0 {c : Char} (h : ¬(c = '0')) : ∀ l, hexMatch (c :: l) = none := by
  intro l
  match l with
  | [] => rfl
  | x :: cs =>
    simp only [hexMatch]
    rw [if_neg]
    intro hand
    exact h hand.1

theorem numberMatch_none_head {c : Char} {r : List Char} (h1 : ¬(c = '+')) (h2 : ¬(c = '-'))
    (h3 : isDigitChar c = false) (h4 : ¬(c = '.')) : numberMatch (c :: r) = none := by
  have hbody : numBody (c :: r) = none := by
    simp only [numBody, countWhile_cons_false h3, if_pos]
    rw [if_neg h4]
  simp only [numberMatch]
  rw [if_neg (by tauto), hbody]

theorem classCands_nil {c : Char} (rest : List Char) (h1 : isIdentStartChar c = false)
    (hc0 : ¬(c = '0')) (h3 : isDigitChar c = false) (h4 : ¬(c = '.')) (h5 : ¬(c = '+'))
    (h6 : ¬(c = '-')) : classCands (c :: rest) = [] := by
  simp [classCands, identMatch, h1, hexMatch_cons_ne0 hc0 rest,
    numberMatch_none_head h5 h6 h3 h4, optCand]

theorem not_ws_of_identStart {c : Char} (h : isIdentStartChar c = true) : isWsChar c = false := by
  simp only [isIdentStartChar, Bool.or_eq_true, Bool.and_eq_true, decide_eq_true_eq] at h
  simp only [isWsChar, Bool.or_eq_false_iff, decide_eq_false_iff_not]
  omega

theorem not_ws_of_digit {c : Char} (h : isDigitChar c = true) : isWsChar c = false := by
  simp only [isDigitChar, Bool.and_eq_true, decide_eq_true_eq] at h
  simp only [isWsChar, Bool.or_eq_false_iff, decide_eq_false_iff_not]
  omega

theorem digit_not_identStart {c : Char} (h : isDigitChar c = true) :
    isIdentStartChar c = false := by
  simp only [isDigitChar, Bool.and_eq_true, decide_eq_true_eq] at h
  simp only [isIdentStartChar, Bool.or_eq_false_iff, Bool.and_eq_false_iff,
    decide_eq_false_iff_not]
  omega

theorem digit_ne_chars {c : Char} (h : isDigitChar c = true) :
    ¬(c = '.') ∧ ¬(c = '+') ∧ ¬(c = '-') ∧ ¬(c = 'x') ∧ ¬(c = 'X') ∧ ¬(c = '\r') := by
  simp only [isDigitChar, Bool.and_eq_true, decide_eq_true_eq] at h
  refine ⟨?_, ?_, ?_, ?_, ?_, ?_⟩ <;> (rintro rfl; revert h; decide)

theorem digitChar_notin_litHeads {c : Char} (h : isDigitChar c = true) : c ∉ litHeads := by
  intro hm
  fin_cases hm <;> revert h <;> decide

/-- `l` matches the whole of the `Identifier` regex `[a-zA-Z_][a-zA-Z0-9_]*`. -/
def identAllB (l : List Char) : Bool :=
  match l with
  | [] => false
  | c :: r => isIdentStartChar c && r.all isIdentContChar

theorem identMatch_of_identAllB {cs : List Char} (h : identAllB cs = true) :
    identMatch cs = some cs.length := by
  match cs with
  | [] => simp [identAllB] at h
  | c :: r =>
    simp only [identAllB, Bool.and_eq_true] at h
    simp [identMatch, h.1, countWhile_all_eq h.2, List.length_cons]

theorem literalDefs_identShaped :
    ∀ e ∈ literalDefs, identAllB e.2.1 = true → e ∈ keywordDefs := by decide

theorem best_ident {cs : List Char} (hid : identAllB cs = true) (hkw : cs ∉ kwStrings) :
    best (candidates cs) = some (Token.Identifier, cs.length, 3) := by
  have hm : identMatch cs = some cs.length := identMatch_of_identAllB hid
  apply best_eq_of_top
  · show (Token.Identifier, cs.length, 3) ∈ litCands cs ++ classCands cs
    apply List.mem_append_right
    show _ ∈ (optCand Token.Identifier 3 (identMatch cs) ++ _) ++ _
    apply List.mem_append_left
    apply List.mem_append_left
    simp [optCand, hm]
  · intro y hy
    rcases mem_candidates hy with ⟨e, he, n, hn, rfl⟩ | ⟨n, hn, rfl⟩ | ⟨n, hn, rfl⟩ | ⟨n, hn, rfl⟩
    · obtain ⟨hlen, t2, ht⟩ := litMatch_some _ _ _ hn
      by_cases hfull : n < cs.length
      · exact Or.inl (by simpa using hfull)
      · exfalso
        have hcl : cs.length = e.2.1.length + t2.length := by
          rw [ht, List.length_append]
        have ht2 : t2 = [] := List.length_eq_zero.mp (by omega)
        subst ht2
        rw [List.append_nil] at ht
        have hkwmem : e ∈ keywordDefs := literalDefs_identShaped e he (ht ▸ hid)
        exact hkw (ht ▸ List.mem_map_of_mem (fun e => e.2.1) hkwmem)
    · have hn' : n = cs.length := by
        rw [hm] at hn
        exact (Option.some.inj hn).symm
      exact Or.inr (by rw [hn'])
    · exfalso
      obtain ⟨x, r, hcs, _, _, _⟩ := hexMatch_some hn
      rw [hcs] at hid
      have h0 : isIdentStartChar '0' = false := by decide
      simp [identAllB, h0] at hid
    · exfalso
      match cs, hid, hn with
      | c :: r, hid, hn =>
        simp only [identAllB, Bool.and_eq_true] at hid
        rcases numberMatch_some_head hn with h | h | h | h
        · rw [h] at hid
          exact absurd hid.1 (by decide)
        · rw [h] at hid
          exact absurd hid.1 (by decide)
        · rw [digit_not_identStart h] at hid
          exact absurd hid.1 (by simp)
        · rw [h] at hid
          exact absurd hid.1 (by decide)

theorem identAllB_head {c : Char} {r : List Char} (h : identAllB (c :: r) = true) :
    isIdentStartChar c = true := by
  simp only [identAllB, Bool.and_eq_true] at h
  exact h.1

/-- Scanning a whole-string identifier that is not a keyword yields the single
Identifier token covering the string. -/
theorem scan_ident_full {cs : List Char} (hid : identAllB cs = true) (hkw : cs ∉ kwStrings) :
    scan cs = [Item.tok Token.Identifier cs 0] := by
  match cs, hid with
  | c :: rest, hid =>
    have hw : isWsChar c = false := not_ws_of_identStart (identAllB_head hid)
    show scanFrom 0 (c :: rest) = _
    rw [scanFrom_tok_step hw (best_ident hid hkw), List.take_length, List.drop_length]
    rfl

theorem char_eq_of_toNat {c d : Char} (h : c.toNat = d.toNat) : c = d :=
  Char.ext (UInt32.ext h)

theorem isWsChar_iff (c : Char) :
    isWsChar c = true ↔ (c = ' ' ∨ c = '\t' ∨ c = '\n' ∨ c = '\x0c') := by
  simp only [isWsChar, Bool.or_eq_true, decide_eq_true_eq]
  constructor
  · rintro (((h | h) | h) | h)
    · exact Or.inl (char_eq_of_toNat (h.trans (by decide)))
    · exact Or.inr (Or.inl (char_eq_of_toNat (h.trans (by decide))))
    · exact Or.inr (Or.inr (Or.inl (char_eq_of_toNat (h.trans (by decide)))))
    · exact Or.inr (Or.inr (Or.inr (char_eq_of_toNat (h.trans (by decide)))))
  · intro h
    rcases h with h | h | h | h <;> rw [h] <;> decide

theorem hexMatch_min {cs : List Char} {n : Nat} (h : hexMatch cs = some n) : 3 ≤ n := by
  obtain ⟨x, r, _, _, hpos, hn⟩ := hexMatch_some h
  omega

theorem hexMatch_no_digit {x : Char} {rest : List Char} (_hx : x = 'x' ∨ x = 'X')
    (h0 : countWhile isHexDigitChar rest = 0) : hexMatch ('0' :: x :: rest) = none := by
  simp [hexMatch, h0]

theorem hexMatch_none_2nd {a x : Char} {r : List Char} (hx1 : ¬(x = 'x')) (hx2 : ¬(x = 'X')) :
    hexMatch (a :: x :: r) = none := by
  simp only [hexMatch]
  rw [if_neg (by tauto)]

theorem candidates_nil_of {c : Char} (rest : List Char) (hh : c ∉ litHeads)
    (h1 : isIdentStartChar c = false) (hc0 : ¬(c = '0')) (h3 : isDigitChar c = false)
    (h4 : ¬(c = '.')) (h5 : ¬(c = '+')) (h6 : ¬(c = '-')) : candidates (c :: rest) = [] := by
  simp [candidates, litCands_nil hh, classCands_nil rest h1 hc0 h3 h4 h5 h6]

theorem candidates_cr (rest : List Char) : candidates ('\r' :: rest) = [] :=
  candidates_nil_of rest (by decide) (by decide) (by decide) (by decide) (by decide)
    (by decide) (by decide)

theorem lineComment_best (rest : List Char) :
    best (candidates ('/' :: '/' :: rest)) = some (Token.LineComment, 2, 4) := by
  simp +decide [candidates, litCands, literalDefs, litMatch, classCands, optCand, identMatch,
    hexMatch, numberMatch, numBody, countWhile, best, pickBetter]

theorem blockCommentOpen_best (rest : List Char) :
    best (candidates ('/' :: '*' :: rest)) = some (Token.BlockCommentPrefix, 2, 4) := by
  simp +decide [candidates, litCands, literalDefs, litMatch, classCands, optCand, identMatch,
    hexMatch, numberMatch, numBody, countWhile, best, pickBetter]

theorem blockCommentClose_best (rest : List Char) :
    best (candidates ('*' :: '/' :: rest)) = some (Token.BlockCommentSuffix, 2, 4) := by
  simp +decide [candidates, litCands, literalDefs, litMatch, classCands, optCand, identMatch,
    hexMatch, numberMatch, numBody, countWhile, best, pickBetter]

theorem singleQuote_best (rest : List Char) :
    best (candidates ('\'' :: rest)) = some (Token.SingleQuote, 1, 2) := by
  simp +decide [candidates, litCands, literalDefs, litMatch, classCands, optCand, identMatch,
    hexMatch_cons_ne0 (show ¬('\'' = '0') by decide), numberMatch, numBody, countWhile,
    best, pickBetter]

theorem doubleQuote_best (rest : List Char) :
    best (candidates ('\"' :: rest)) = some (Token.DoubleQuote, 1, 2) := by
  simp +decide [candidates, litCands, literalDefs, litMatch, classCands, optCand, identMatch,
    hexMatch_cons_ne0 (show ¬('\"' = '0') by decide), numberMatch, numBody, countWhile,
    best, pickBetter]

theorem scan_lineComment_step (pos : Nat) (rest : List Char) :
    scanFrom pos ('/' :: '/' :: rest) =
      Item.tok Token.LineComment ['/', '/'] pos :: scanFrom (pos + 2) rest := by
  rw [scanFrom_tok_step (by decide) (lineComment_best rest)]
  rfl

theorem scan_blockCommentOpen_step (pos : Nat) (rest : List Char) :
    scanFrom pos ('/' :: '*' :: rest) =
      Item.tok Token.BlockCommentPrefix ['/', '*'] pos :: scanFrom (pos + 2) rest := by
  rw [scanFrom_tok_step (by decide) (blockCommentOpen_best rest)]
  rfl

theorem scan_blockCommentClose_step (pos : Nat) (rest : List Char) :
    scanFrom pos ('*' :: '/' :: rest) =
      Item.tok Token.BlockCommentSuffix ['*', '/'] pos :: scanFrom (pos + 2) rest := by
  rw [scanFrom_tok_step (by decide) (blockCommentClose_best rest)]
  rfl

theorem scan_singleQuote_step (pos : Nat) (rest : List Char) :
    scanFrom pos ('\'' :: rest) =
      Item.tok Token.SingleQuote ['\''] pos :: scanFrom (pos + 1) rest := by
  rw [scanFrom_tok_step (by decide) (singleQuote_best rest)]
  rfl

theorem scan_doubleQuote_step (pos : Nat) (rest : List Char) :
    scanFrom pos ('\"' :: rest) =
      Item.tok Token.DoubleQuote ['\"'] pos :: scanFrom (pos + 1) rest := by
  rw [scanFrom_tok_step (by decide) (doubleQuote_best rest)]
  rfl

theorem numberMatch_digits_dots {d1 d2 : List Char} (h1 : d1 ≠ [])
    (ha1 : d1.all isDigitChar = true) :
    numberMatch (d1 ++ '.' :: '.' :: d2) = some (d1.length + 1) := by
  have hd : countWhile isDigitChar (d1 ++ '.' :: '.' :: d2) = d1.length := by
    rw [countWhile_append_all ha1, countWhile_cons_false (by decide)]
    omega
  have hlen : 0 < d1.length := List.length_pos.mpr h1
  have hne : ¬(countWhile isDigitChar (d1 ++ '.' :: '.' :: d2) = 0) := by
    rw [hd]
    omega
  have hdrop : List.drop (countWhile isDigitChar (d1 ++ '.' :: '.' :: d2))
      (d1 ++ '.' :: '.' :: d2) = '.' :: '.' :: d2 := by
    rw [hd]
    simp
  have hbody : numBody (d1 ++ '.' :: '.' :: d2) = some (d1.length + 1) := by
    simp only [numBody, if_neg hne, hdrop, if_true]
    rw [if_pos (countWhile_cons_false (by decide) d2), hd]
  match d1, h1, ha1 with
  | a :: r1, _, ha1 =>
    have ha : isDigitChar a = true := by
      simp only [List.all_cons, Bool.and_eq_true] at ha1
      exact ha1.1
    have hch := digit_ne_chars ha
    rw [List.cons_append]
    rw [List.cons_append] at hbody
    simp only [numberMatch]
    rw [if_neg (by tauto)]
    exact hbody

theorem candidates_digits_dots {d1 d2 : List Char} (h1 : d1 ≠ [])
    (ha1 : d1.all isDigitChar = true) :
    candidates (d1 ++ '.' :: '.' :: d2) = [(Token.Number, d1.length + 1, 1)] := by
  match d1, h1, ha1 with
  | a :: r1, _, ha1 =>
    have ha : isDigitChar a = true := by
      simp only [List.all_cons, Bool.and_eq_true] at ha1
      exact ha1.1
    have hch := digit_ne_chars ha
    have hnum := @numberMatch_digits_dots (a :: r1) d2 (List.cons_ne_nil a r1) ha1
    rw [List.cons_append] at hnum ⊢
    have hlit : litCands (a :: (r1 ++ '.' :: '.' :: d2)) = [] :=
      litCands_nil (digitChar_notin_litHeads ha) _
    have hident : identMatch (a :: (r1 ++ '.' :: '.' :: d2)) = none := by
      simp [identMatch, digit_not_identStart ha]
    have hhex : hexMatch (a :: (r1 ++ '.' :: '.' :: d2)) = none := by
      match r1, ha1 with
      | [], _ => exact hexMatch_none_2nd (by decide) (by decide)
      | b :: r1', ha1 =>
        have hb : isDigitChar b = true := by
          simp only [List.all_cons, Bool.and_eq_true] at ha1
          exact ha1.2.1
        have hbch := digit_ne_chars hb
        exact hexMatch_none_2nd hbch.2.2.2.1 hbch.2.2.2.2.1
    simp only [candidates, classCands, hlit, hident, hhex, hnum, optCand]
    simp

theorem candidates_dot_digits {d2 : List Char} (h2 : d2 ≠ [])
    (ha2 : d2.all isDigitChar = true) :
    candidates ('.' :: d2) = [(Token.Dot, 1, 2), (Token.Number, d2.length + 1, 1)] := by
  match d2, h2, ha2 with
  | b :: r2, _, ha2 =>
    have hb : isDigitChar b = true := by
      simp only [List.all_cons, Bool.and_eq_true] at ha2
      exact ha2.1
    have hbch := digit_ne_chars hb
    have hbne : ¬('.' = b) := fun he => hbch.1 he.symm
    have hlit : litCands ('.' :: b :: r2) = [(Token.Dot, 1, 2)] := by
      simp +decide [litCands, literalDefs, litMatch, hbne]
    have hnum : numberMatch ('.' :: b :: r2) = some ((b :: r2).length + 1) := by
      have hcnt : countWhile isDigitChar (b :: r2) = (b :: r2).length := countWhile_all_eq ha2
      have hz : countWhile isDigitChar ('.' :: b :: r2) = 0 :=
        countWhile_cons_false (by decide) _
      simp only [numberMatch]
      rw [if_neg (by decide)]
      simp only [numBody, hz, if_pos]
      rw [if_neg (by rw [hcnt]; simp), hcnt]
    simp only [candidates, classCands, hlit, hnum, optCand]
    have hident : identMatch ('.' :: b :: r2) = none := by
      simp +decide [identMatch]
    have hhex : hexMatch ('.' :: b :: r2) = none := hexMatch_cons_ne0 (by decide) _
    simp [hident, hhex, optCand]

theorem scan_digits_dots_digits {d1 d2 : List Char} (h1 : d1 ≠ [])
    (ha1 : d1.all isDigitChar = true) (h2 : d2 ≠ []) (ha2 : d2.all isDigitChar = true)
    (pos : Nat) :
    scanFrom pos (d1 ++ '.' :: '.' :: d2) =
      [Item.tok Token.Number (d1 ++ ['.']) pos,
       Item.tok Token.Number ('.' :: d2) (pos + (d1.length + 1))] := by
  have hbest1 : best (candidates (d1 ++ '.' :: '.' :: d2)) =
      some (Token.Number, d1.length + 1, 1) := by
    rw [candidates_digits_dots h1 ha1]
    rfl
  match d1, h1, ha1 with
  | a :: r1, _, ha1 =>
    have ha : isDigitChar a = true := by
      simp only [List.all_cons, Bool.and_eq_true] at ha1
      exact ha1.1
    have hw : isWsChar a = false := not_ws_of_digit ha
    rw [List.cons_append] at hbest1 ⊢
    rw [scanFrom_tok_step hw hbest1]
    have htake : List.take ((a :: r1).length + 1) ((a :: r1) ++ '.' :: '.' :: d2) =
        (a :: r1) ++ ['.'] := by
      rw [List.take_append 1]
      rfl
    have hdrop : List.drop ((a :: r1).length + 1) ((a :: r1) ++ '.' :: '.' :: d2) =
        '.' :: d2 := by
      rw [List.drop_append 1]
      rfl
    rw [← List.cons_append, htake, hdrop]
    congr 1
    have hbest2 : best (candidates ('.' :: d2)) = some (Token.Number, d2.length + 1, 1) := by
      rw [candidates_dot_digits h2 ha2]
      have hlen : 0 < d2.length := List.length_pos.mpr h2
      simp only [best, List.foldl_cons, List.foldl_nil, pickBetter]
      rw [if_pos (Or.inl (by omega))]
    rw [scanFrom_tok_step (by decide) hbest2]
    have htake2 : List.take (d2.length + 1) ('.' :: d2) = '.' :: d2 := by
      rw [List.take_succ_cons, List.take_length]
    have hdrop2 : List.drop (d2.length + 1) ('.' :: d2) = [] := by
      rw [List.drop_succ_cons, List.drop_length]
    rw [htake2, hdrop2]
    rfl

/-- Relabel an item's start offset by `k`. -/
def shiftItem (k : Nat) : Item → Item
  | .tok t lx p => .tok t lx (p + k)
  | .ws r p => .ws r (p + k)
  | .err c p => .err c (p + k)

theorem scanFrom_shift_aux : ∀ (f : Nat) (cs : List Char) (p k : Nat), cs.length ≤ f →
    scanFrom (p + k) cs = (scanFrom p cs).map (shiftItem k) := by
  intro f
  induction f with
  | zero =>
    intro cs p k h
    have : cs = [] := List.length_eq_zero.mp (Nat.le_zero.mp h)
    subst this
    rfl
  | succ f ih =>
    intro cs p k h
    match cs with
    | [] => rfl
    | c :: rest =>
      simp only [List.length_cons] at h
      rw [scanFrom_cons, scanFrom_cons]
      by_cases hw : isWsChar c
      · rw [if_pos hw, if_pos hw]
        simp only [List.map_cons, shiftItem]
        congr 1
        rw [show p + k + (countWhile isWsChar rest + 1)
            = p + (countWhile isWsChar rest + 1) + k by omega]
        exact ih _ _ _ (by rw [List.length_drop]; simp only [List.length_cons]; omega)
      · rw [if_neg hw, if_neg hw]
        rcases hb : best (candidates (c :: rest)) with _ | ⟨t, n, pr⟩
        · simp only [List.map_cons, shiftItem]
          congr 1
          rw [show p + k + 1 = p + 1 + k by omega]
          exact ih _ _ _ (by omega)
        · have hn : 1 ≤ n := cand_len_pos (best_mem hb)
          simp only [List.map_cons, shiftItem]
          congr 1
          rw [show p + k + n = p + n + k by omega]
          exact ih _ _ _ (by rw [List.length_drop]; simp only [List.length_cons]; omega)

theorem scanFrom_shift (k : Nat) (cs : List Char) :
    scanFrom k cs = (scan cs).map (shiftItem k) := by
  have := scanFrom_shift_aux cs.length cs 0 k le_rfl
  simpa using this

theorem hexMatch_with_digits {x : Char} {rest : List Char} (hx : x = 'x' ∨ x = 'X')
    (hpos : 0 < countWhile isHexDigitChar rest) :
    hexMatch ('0' :: x :: rest) = some (countWhile isHexDigitChar rest + 2) := by
  simp only [hexMatch]
  split
  · rw [if_neg (by omega)]
  · tauto

/-- C1: Coverage law: for every input, concatenating in original order the
lexeme of every emitted token, every skipped whitespace run, and the single
character of every reported error reproduces the input exactly; the items are
contiguous from offset 0, so every offset in `[0, len)` is accounted for
exactly once, none omitted or duplicated. -/
theorem c1_coverage_law :
    (∀ cs : List Char, itemsText (scan cs) = cs) ∧
    (∀ cs : List Char, contiguousFrom 0 (scan cs)) :=
  ⟨fun cs => scanFrom_text_aux cs.length cs 0 le_rfl,
   fun cs => scanFrom_contig_aux cs.length cs 0 le_rfl⟩

/-- C2: every reserved keyword string, scanned in isolation, yields exactly one
token of the matching keyword kind and never an Identifier token; the
Identifier regex matches the same text at the same length (the exact-length
tie), and the keyword row carries priority 10, which beats Identifier's 3. -/
theorem c2_keyword_over_identifier (e : Token × List Char × Nat) (he : e ∈ keywordDefs) :
    scan e.2.1 = [Item.tok e.1 e.2.1 0] ∧ e.1 ≠ Token.Identifier ∧
      identMatch e.2.1 = some e.2.1.length ∧ e.2.2 = 10 := by
  revert e
  decide

theorem c2_keyword_over_identifier_witness :
    scan ['b', 'r', 'e', 'a', 'k'] = [Item.tok Token.Break ['b', 'r', 'e', 'a', 'k'] 0] :=
  (c2_keyword_over_identifier (Token.Break, ['b', 'r', 'e', 'a', 'k'], 10) (by decide)).1

/-- C3: every string matching `[A-Za-z_][A-Za-z0-9_]*` that is not exactly a
reserved keyword scans in isolation to exactly one Identifier token spanning
the entire string: the strictly longer Identifier match beats every keyword
prefix regardless of priority. -/
theorem c3_identifier_whole_string (cs : List Char) (hid : identAllB cs = true)
    (hkw : cs ∉ kwStrings) : scan cs = [Item.tok Token.Identifier cs 0] :=
  scan_ident_full hid hkw

theorem c3_identifier_whole_string_witness :
    scan "breakreturn".data = [Item.tok Token.Identifier "breakreturn".data 0] :=
  c3_identifier_whole_string "breakreturn".data (by decide) (by decide)

/-- C4: the Hexadecimal recognizer demands the exact prefix `0x`/`0X` plus one
or more hex digits and fails outright otherwise: `"0x1234"` scans to one
six-character Hexadecimal token, `"0x_1234"` scans to Number `"0"` then
Identifier `"x_1234"`, a prefix with no following hex digit yields no match at
all, with a digit it matches the whole run, and every hex match has length at
least 3 — never a truncated `"0x"`. -/
theorem c4_hexadecimal_all_or_nothing :
    (scan "0x1234".data = [Item.tok Token.Hexadecimal "0x1234".data 0]) ∧
    (scan "0x_1234".data =
      [Item.tok Token.Number ['0'] 0, Item.tok Token.Identifier "x_1234".data 1]) ∧
    (∀ (x : Char) (rest : List Char), x = 'x' ∨ x = 'X' →
      countWhile isHexDigitChar rest = 0 → hexMatch ('0' :: x :: rest) = none) ∧
    (∀ (x : Char) (rest : List Char), x = 'x' ∨ x = 'X' →
      0 < countWhile isHexDigitChar rest →
      hexMatch ('0' :: x :: rest) = some (countWhile isHexDigitChar rest + 2)) ∧
    (∀ (cs : List Char) (n : Nat), hexMatch cs = some n → 3 ≤ n) := by
  refine ⟨by decide, by decide, ?_, ?_, ?_⟩
  · intro x rest hx h0
    exact hexMatch_no_digit hx h0
  · intro x rest hx hpos
    exact hexMatch_with_digits hx hpos
  · intro cs n h
    exact hexMatch_min h

/-- C5: when no recognizer matches at the cursor, the scanner emits an error
item carrying the offending offset and character, advances the cursor by
exactly one character, and continues scanning the remainder — recoverable,
never fatal. -/
theorem c5_unrecognized_char_recovery (pos : Nat) (c : Char) (rest : List Char)
    (hw : isWsChar c = false) (hnone : candidates (c :: rest) = []) :
    scanFrom pos (c :: rest) = Item.err c pos :: scanFrom (pos + 1) rest :=
  scanFrom_err_step hw (by rw [hnone]; rfl)

theorem c5_unrecognized_char_recovery_witness :
    scanFrom 0 ['@'] = [Item.err '@' 0] := by
  rw [c5_unrecognized_char_recovery 0 '@' [] (by decide) (by decide)]
  rfl

/-- C6: comment and quote markers are bare punctuation with no mode change:
`//`, `/*` and `*/` are each emitted as single standalone tokens, the quote
characters are emitted as plain one-character tokens, and in every case the
scanner continues on the remaining text with the very same rules (the
continuation is `scanFrom` itself, and scanning is position-independent up to
an offset shift). -/
theorem c6_markers_are_plain_tokens :
    (∀ (pos : Nat) (rest : List Char), scanFrom pos ('/' :: '/' :: rest) =
      Item.tok Token.LineComment ['/', '/'] pos :: scanFrom (pos + 2) rest) ∧
    (∀ (pos : Nat) (rest : List Char), scanFrom pos ('/' :: '*' :: rest) =
      Item.tok Token.BlockCommentPrefix ['/', '*'] pos :: scanFrom (pos + 2) rest) ∧
    (∀ (pos : Nat) (rest : List Char), scanFrom pos ('*' :: '/' :: rest) =
      Item.tok Token.BlockCommentSuffix ['*', '/'] pos :: scanFrom (pos + 2) rest) ∧
    (∀ (pos : Nat) (rest : List Char), scanFrom pos ('\'' :: rest) =
      Item.tok Token.SingleQuote ['\''] pos :: scanFrom (pos + 1) rest) ∧
    (∀ (pos : Nat) (rest : List Char), scanFrom pos ('\"' :: rest) =
      Item.tok Token.DoubleQuote ['\"'] pos :: scanFrom (pos + 1) rest) ∧
    (∀ (k : Nat) (cs : List Char), scanFrom k cs = (scan cs).map (shiftItem k)) :=
  ⟨scan_lineComment_step, scan_blockCommentOpen_step, scan_blockCommentClose_step,
   scan_singleQuote_step, scan_doubleQuote_step, scanFrom_shift⟩

/-- C7: determinism and restartability: one `next` step is a pure function of
the input buffer and the cursor offset, so replaying `next` from any two
scanners over the same buffer at the same offset yields identical result
sequences on every run. -/
theorem c7_deterministic_restart (s1 s2 : Scanner) (k : Nat)
    (hbuf : s1.input = s2.input) (hpos : s1.pos = s2.pos) :
    runNext k s1 = runNext k s2 := by
  cases s1
  cases s2
  cases hbuf
  cases hpos
  rfl

theorem c7_deterministic_restart_witness :
    runNext 4 ⟨"a b".data, 0⟩ = runNext 4 ⟨"a b".data, 0⟩ :=
  c7_deterministic_restart ⟨"a b".data, 0⟩ ⟨"a b".data, 0⟩ 4 rfl rfl

/-- C8 (amended): the scanner reserves exactly 21 keyword strings, each
matched as an exact literal at keyword priority 10, and these 21 are the only
strings excluded from the Identifier class on an exact match: every other
whole-string Identifier match scans to an Identifier token. -/
theorem c8_twentyone_keywords :
    keywordDefs.length = 21 ∧
    (∀ e ∈ keywordDefs, e.2.2 = 10 ∧ scan e.2.1 = [Item.tok e.1 e.2.1 0] ∧
      e.1 ≠ Token.Identifier ∧ identAllB e.2.1 = true) ∧
    (∀ cs : List Char, identAllB cs = true → cs ∉ kwStrings →
      scan cs = [Item.tok Token.Identifier cs 0]) :=
  ⟨by decide, by decide, fun cs hid hkw => scan_ident_full hid hkw⟩

/-- C8 counterexample: the table does not have 22 keyword rows. -/
theorem c8_not_twentytwo : ¬(keywordDefs.length = 22) := by decide

/-- C9: because the Number class includes the digits-then-trailing-dot shape
and the longest match wins, `"1..5"` scans to Number `"1."` then Number
`".5"`, and for every input of the form digits `..` digits the scan is two
Number tokens and no InclusiveRange or ExclusiveRange token ever appears. -/
theorem c9_no_range_between_digits :
    (scan "1..5".data = [Item.tok Token.Number "1.".data 0,
      Item.tok Token.Number ".5".data 2]) ∧
    (∀ d1 d2 : List Char, d1 ≠ [] → d1.all isDigitChar = true → d2 ≠ [] →
      d2.all isDigitChar = true →
      scan (d1 ++ '.' :: '.' :: d2) =
        [Item.tok Token.Number (d1 ++ ['.']) 0,
         Item.tok Token.Number ('.' :: d2) (d1.length + 1)] ∧
      ∀ it ∈ scan (d1 ++ '.' :: '.' :: d2), ∀ (lx : List Char) (p : Nat),
        it ≠ Item.tok Token.InclusiveRange lx p ∧
        it ≠ Item.tok Token.ExclusiveRange lx p) := by
  refine ⟨by decide, ?_⟩
  intro d1 d2 h1 ha1 h2 ha2
  have hscan := scan_digits_dots_digits h1 ha1 h2 ha2 0
  have hzero : (0 : Nat) + (d1.length + 1) = d1.length + 1 := by omega
  rw [hzero] at hscan
  refine ⟨hscan, ?_⟩
  intro it hit lx p
  rw [scan] at hit
  rw [hscan] at hit
  simp only [List.mem_cons, List.not_mem_nil, or_false] at hit
  rcases hit with rfl | rfl <;> exact ⟨by simp, by simp⟩

/-- C10: carriage return is not whitespace to this scanner: the skipped set is
exactly space, tab, line feed and form feed, and whenever the cursor stands on
a `\r` the scanner reports an unrecognized-character error at that offset and
moves on by one character. -/
theorem c10_carriage_return_is_error :
    (∀ c : Char, isWsChar c = true ↔ (c = ' ' ∨ c = '\t' ∨ c = '\n' ∨ c = '\x0c')) ∧
    isWsChar '\r' = false ∧
    (∀ (pos : Nat) (rest : List Char), scanFrom pos ('\r' :: rest) =
      Item.err '\r' pos :: scanFrom (pos + 1) rest) :=
  ⟨isWsChar_iff, by decide,
   fun pos rest => scanFrom_err_step (by decide) (by rw [candidates_cr]; rfl)⟩

end WrenLexer
